import Mathlib

/-!
Shallow embedding of the goga evolutionary optimizer (Go) in Lean 4.

Conventions of the embedding:
* Go `float64` values are modelled as `ℚ` (the claims under study only compare,
  add, subtract and divide objective/penalty values; no transcendental function
  is involved), except where finiteness of IEEE values matters, where the
  dedicated type `FVal` below keeps the non-finite points.
* Go `int` is modelled as `ℤ`; slice lengths and loop ranges as `ℕ`.
* Go slices are Lean lists; `s[i]` is `List.getD i 0` (callers of the modelled
  functions assert equal lengths before indexing; theorems carry those length
  facts as hypotheses where they matter).
* Functions that `panic` are modelled in `Except String` / `Option`.
* Randomness (coin flips, shuffles) is passed in explicitly: a coin is a
  function `ℚ → Bool` receiving the probability the code hands to
  `rnd.FlipCoin`, a shuffle stream is `ℕ → List ℤ` giving the result of the
  k-th in-place shuffle.
-/

namespace Goga

/-- Solution holds solution values (src/solution.go, struct Solution): the
essential data (id, objective values, out-of-range values, floats, ints) and
the metric fields used by comparison and sorting. -/
structure Solution where
  Id : ℤ
  Ova : List ℚ
  Oor : List ℚ
  Flt : List ℚ
  Int : List ℤ
  FrontId : ℤ
  DistCrowd : ℚ
  DistNeigh : ℚ
deriving DecidableEq

/-- Internal comparison flags of the `Parameters` record referenced by
src/solution.go (`prms.use_solution_*`).  The file defining this version of
`Parameters` is not under src/, so the flags are kept abstract here and passed
to `Compare`/`Fight` explicitly. -/
structure SolParams where
  use_solution_comparedneigh : Bool
  use_solution_frontcomparison : Bool
  use_solution_distneighfight : Bool
deriving DecidableEq

/-- Modelled from the spec: `utl.DblsParetoMin` (gosl dependency, not under
src/) — Pareto-minimisation test on two equal-length vectors, §4.3: the first
component is true iff every `u[i] ≤ v[i]` with at least one strict inequality,
the second component symmetrically for `v`. -/
def DblsParetoMin (u v : List ℚ) : Bool × Bool :=
  let z := u.zip v
  ((z.all fun p => decide (p.1 ≤ p.2)) && (z.any fun p => decide (p.1 < p.2)),
   (z.all fun p => decide (p.2 ≤ p.1)) && (z.any fun p => decide (p.2 < p.1)))

/-- Count of positive entries among the first `n` positions of `l`
(the violation-counting loop of `Solution.Compare` runs `i < len(A.Oor)`
and tests `Oor[i] > 0` on both vectors). -/
def countPosTo (l : List ℚ) (n : ℕ) : ℕ :=
  (List.range n).countP (fun i => decide (0 < l.getD i 0))

/-- Compare compares two solutions (src/solution.go, `Solution.Compare`).
The body counts constraint violations of both solutions over `len(A.Oor)`
positions and branches exactly as the source; when
`use_solution_comparedneigh` is set, the deferred function additionally forces
the flag of whichever solution has the larger neighbour distance. -/
def Solution.Compare (prms : SolParams) (A B : Solution) : Bool × Bool :=
  let anv := countPosTo A.Oor A.Oor.length
  let bnv := countPosTo B.Oor A.Oor.length
  let body : Bool × Bool :=
    if 0 < anv then
      if 0 < bnv then
        if anv < bnv then (true, false)
        else if bnv < anv then (false, true)
        else
          let r := DblsParetoMin A.Oor B.Oor
          if !r.1 && !r.2 then DblsParetoMin A.Ova B.Ova else r
      else (false, true)
    else
      if 0 < bnv then (true, false)
      else DblsParetoMin A.Ova B.Ova
  if prms.use_solution_comparedneigh then
    (body.1 || decide (B.DistNeigh < A.DistNeigh),
     body.2 || decide (A.DistNeigh < B.DistNeigh))
  else body

/-- Pareto domination of `u` over `v` as the spec states it (§4.3 step 2):
every component of `u` is `≤` the matching one of `v` and at least one is
strictly smaller. -/
def ParetoDom (u v : List ℚ) : Prop :=
  (∀ i < u.length, u.getD i 0 ≤ v.getD i 0) ∧ ∃ i < u.length, u.getD i 0 < v.getD i 0

/-- Number of violated constraints per the spec (§4.3 step 1): the count of
positive penalty components. -/
def nv (oor : List ℚ) : ℕ := oor.countP (fun x => decide (0 < x))

/-- Constraint-aware dominance of `A` over `B` exactly as the spec words it
(§4.3 steps 2-4): both feasible — Pareto on `ova`; both infeasible — fewer
violations wins, on a tie Pareto on the penalty vector, and if that decides
neither then Pareto on `ova`; exactly one feasible — the feasible one. -/
def SpecDominates (A B : Solution) : Prop :=
  if nv A.Oor = 0 ∧ nv B.Oor = 0 then
    ParetoDom A.Ova B.Ova
  else if nv A.Oor ≠ 0 ∧ nv B.Oor ≠ 0 then
    nv A.Oor < nv B.Oor ∨
      (nv A.Oor = nv B.Oor ∧
        (ParetoDom A.Oor B.Oor ∨
          (¬ParetoDom A.Oor B.Oor ∧ ¬ParetoDom B.Oor A.Oor ∧ ParetoDom A.Ova B.Ova)))
  else nv A.Oor = 0

section CompareLemmas

lemma countPosTo_eq_countP (l : List ℚ) :
    countPosTo l l.length = nv l := by
  unfold countPosTo nv
  induction l with
  | nil => simp
  | cons a t ih =>
    rw [List.length_cons, List.range_succ_eq_map]
    simp only [List.countP_cons, List.countP_map]
    simp only [List.getD_cons_zero, List.getD_cons_succ, Function.comp_def] at *
    omega

lemma zip_mem_iff (u v : List ℚ) (p : ℚ × ℚ) :
    p ∈ u.zip v ↔ ∃ i, i < u.length ∧ i < v.length ∧ p.1 = u.getD i 0 ∧ p.2 = v.getD i 0 := by
  induction u generalizing v with
  | nil => simp
  | cons a t ih =>
    cases v with
    | nil => simp
    | cons b s =>
      simp only [List.zip_cons_cons, List.mem_cons, ih]
      constructor
      · rintro (rfl | ⟨i, hi1, hi2, h1, h2⟩)
        · exact ⟨0, by simp, by simp, by simp, by simp⟩
        · refine ⟨i + 1, by simp; omega, by simp; omega, by simpa using h1, by simpa using h2⟩
      · rintro ⟨i, hi1, hi2, h1, h2⟩
        match i with
        | 0 =>
          left
          simp only [List.getD_cons_zero] at h1 h2
          exact Prod.ext h1 h2
        | j + 1 =>
          right
          simp only [List.getD_cons_succ] at h1 h2
          exact ⟨j, by simpa using hi1, by simpa using hi2, h1, h2⟩

lemma dblsParetoMin_fst_iff (u v : List ℚ) (h : u.length = v.length) :
    (DblsParetoMin u v).1 = true ↔ ParetoDom u v := by
  unfold DblsParetoMin ParetoDom
  simp only [Bool.and_eq_true, List.all_eq_true, List.any_eq_true, decide_eq_true_eq]
  constructor
  · rintro ⟨hall, p, hp, hlt⟩
    obtain ⟨i, hi1, hi2, h1, h2⟩ := (zip_mem_iff u v p).mp hp
    refine ⟨fun j hj => ?_, i, hi1, by rw [← h1, ← h2]; exact hlt⟩
    have hz : (u.getD j 0, v.getD j 0) ∈ u.zip v :=
      (zip_mem_iff u v _).mpr ⟨j, hj, by omega, rfl, rfl⟩
    exact hall _ hz
  · rintro ⟨hall, i, hi, hlt⟩
    constructor
    · intro p hp
      obtain ⟨j, hj1, hj2, h1, h2⟩ := (zip_mem_iff u v p).mp hp
      rw [h1, h2]
      exact hall j hj1
    · refine ⟨(u.getD i 0, v.getD i 0), ?_, hlt⟩
      exact (zip_mem_iff u v _).mpr ⟨i, hi, by omega, rfl, rfl⟩

lemma dblsParetoMin_swap (u v : List ℚ) :
    (DblsParetoMin u v).2 = (DblsParetoMin v u).1 := by
  unfold DblsParetoMin
  simp only
  congr 1
  · rw [Bool.eq_iff_iff, List.all_eq_true, List.all_eq_true]
    constructor <;> intro hall p hp
    · obtain ⟨j, hj1, hj2, h1, h2⟩ := (zip_mem_iff v u p).mp hp
      have := hall _ ((zip_mem_iff u v (u.getD j 0, v.getD j 0)).mpr ⟨j, hj2, hj1, rfl, rfl⟩)
      simp only [decide_eq_true_eq] at this ⊢
      rw [h1, h2]
      exact this
    · obtain ⟨j, hj1, hj2, h1, h2⟩ := (zip_mem_iff u v p).mp hp
      have := hall _ ((zip_mem_iff v u (v.getD j 0, u.getD j 0)).mpr ⟨j, hj2, hj1, rfl, rfl⟩)
      simp only [decide_eq_true_eq] at this ⊢
      rw [h1, h2]
      exact this
  · rw [Bool.eq_iff_iff, List.any_eq_true, List.any_eq_true]
    constructor <;> intro hex
    · obtain ⟨p, hp, hlt⟩ := hex
      obtain ⟨j, hj1, hj2, h1, h2⟩ := (zip_mem_iff u v p).mp hp
      refine ⟨(v.getD j 0, u.getD j 0), (zip_mem_iff v u _).mpr ⟨j, hj2, hj1, rfl, rfl⟩, ?_⟩
      simp only [decide_eq_true_eq] at hlt ⊢
      rw [h1, h2] at hlt
      exact hlt
    · obtain ⟨p, hp, hlt⟩ := hex
      obtain ⟨j, hj1, hj2, h1, h2⟩ := (zip_mem_iff v u p).mp hp
      refine ⟨(u.getD j 0, v.getD j 0), (zip_mem_iff u v _).mpr ⟨j, hj2, hj1, rfl, rfl⟩, ?_⟩
      simp only [decide_eq_true_eq] at hlt ⊢
      rw [h1, h2] at hlt
      exact hlt

lemma dblsParetoMin_not_both (u v : List ℚ) :
    ¬((DblsParetoMin u v).1 = true ∧ (DblsParetoMin u v).2 = true) := by
  unfold DblsParetoMin
  simp only [Bool.and_eq_true, List.all_eq_true, List.any_eq_true, decide_eq_true_eq]
  rintro ⟨⟨hall1, p, hp, hlt1⟩, ⟨hall2, -⟩⟩
  have := hall2 p hp
  exact absurd hlt1 (not_lt.mpr this)

end CompareLemmas

lemma specDominates_infeas_iff (X Y : Solution) (hx : nv X.Oor ≠ 0) (hy : nv Y.Oor ≠ 0) :
    SpecDominates X Y ↔
      (nv X.Oor < nv Y.Oor ∨
        (nv X.Oor = nv Y.Oor ∧
          (ParetoDom X.Oor Y.Oor ∨
            (¬ParetoDom X.Oor Y.Oor ∧ ¬ParetoDom Y.Oor X.Oor ∧ ParetoDom X.Ova Y.Ova)))) := by
  unfold SpecDominates
  rw [if_neg (by rintro ⟨h1, -⟩; exact hx h1), if_pos ⟨hx, hy⟩]

/-- C1: for solutions with penalty vectors (and objective vectors) of equal
length, and with the neighbour-distance comparison flag off (the spec's §4.3
rule has no neighbour-distance step), `Compare` implements the constraint-aware
dominance rule exactly: each returned flag holds iff the corresponding solution
dominates the other per the spec. -/
theorem compare_implements_dominance_rule (prms : SolParams) (A B : Solution)
    (hflag : prms.use_solution_comparedneigh = false)
    (hoor : A.Oor.length = B.Oor.length) (hova : A.Ova.length = B.Ova.length) :
    ((Solution.Compare prms A B).1 = true ↔ SpecDominates A B) ∧
    ((Solution.Compare prms A B).2 = true ↔ SpecDominates B A) := by
  have hA : countPosTo A.Oor A.Oor.length = nv A.Oor := countPosTo_eq_countP A.Oor
  have hB : countPosTo B.Oor A.Oor.length = nv B.Oor := by
    rw [hoor]; exact countPosTo_eq_countP B.Oor
  have hPova := dblsParetoMin_fst_iff A.Ova B.Ova hova
  have hPova2 : (DblsParetoMin A.Ova B.Ova).2 = true ↔ ParetoDom B.Ova A.Ova := by
    rw [dblsParetoMin_swap]; exact dblsParetoMin_fst_iff B.Ova A.Ova hova.symm
  have hPoor := dblsParetoMin_fst_iff A.Oor B.Oor hoor
  have hPoor2 : (DblsParetoMin A.Oor B.Oor).2 = true ↔ ParetoDom B.Oor A.Oor := by
    rw [dblsParetoMin_swap]; exact dblsParetoMin_fst_iff B.Oor A.Oor hoor.symm
  rcases Nat.eq_zero_or_pos (nv A.Oor) with ha | ha <;>
    rcases Nat.eq_zero_or_pos (nv B.Oor) with hb | hb
  · have hc : Solution.Compare prms A B = DblsParetoMin A.Ova B.Ova := by
      simp [Solution.Compare, hflag, hA, hB, ha, hb]
    have hsAB : SpecDominates A B ↔ ParetoDom A.Ova B.Ova := by
      unfold SpecDominates; rw [if_pos ⟨ha, hb⟩]
    have hsBA : SpecDominates B A ↔ ParetoDom B.Ova A.Ova := by
      unfold SpecDominates; rw [if_pos ⟨hb, ha⟩]
    rw [hc, hsAB, hsBA, hPova, hPova2]
    exact ⟨Iff.rfl, Iff.rfl⟩
  · have hc : Solution.Compare prms A B = (true, false) := by
      simp [Solution.Compare, hflag, hA, hB, ha, hb]
    have hsAB : SpecDominates A B := by
      unfold SpecDominates
      rw [if_neg (by rintro ⟨-, h2⟩; omega), if_neg (by rintro ⟨h1, -⟩; exact h1 ha)]
      exact ha
    have hsBA : ¬SpecDominates B A := by
      unfold SpecDominates
      rw [if_neg (by rintro ⟨h1, -⟩; omega), if_neg (by rintro ⟨-, h2⟩; exact h2 ha)]
      omega
    exact ⟨by rw [hc]; exact iff_of_true rfl hsAB,
      by rw [hc]; exact iff_of_false (by simp) hsBA⟩
  · have hc : Solution.Compare prms A B = (false, true) := by
      simp [Solution.Compare, hflag, hA, hB, ha, hb]
    have hsAB : ¬SpecDominates A B := by
      unfold SpecDominates
      rw [if_neg (by rintro ⟨h1, -⟩; omega), if_neg (by rintro ⟨-, h2⟩; exact h2 hb)]
      omega
    have hsBA : SpecDominates B A := by
      unfold SpecDominates
      rw [if_neg (by rintro ⟨-, h2⟩; omega), if_neg (by rintro ⟨h1, -⟩; exact h1 hb)]
      exact hb
    exact ⟨by rw [hc]; exact iff_of_false (by simp) hsAB,
      by rw [hc]; exact iff_of_true rfl hsBA⟩
  · rcases lt_trichotomy (nv A.Oor) (nv B.Oor) with hlt | heq | hgt
    · have hc : Solution.Compare prms A B = (true, false) := by
        simp [Solution.Compare, hflag, hA, hB, ha, hb, hlt]
      refine ⟨?_, ?_⟩
      · rw [hc, specDominates_infeas_iff A B ha.ne' hb.ne']
        exact iff_of_true rfl (Or.inl hlt)
      · rw [hc, specDominates_infeas_iff B A hb.ne' ha.ne']
        refine iff_of_false (by simp) ?_
        rintro (h | ⟨h, -⟩) <;> omega
    · have hcmp : Solution.Compare prms A B =
          (if !(DblsParetoMin A.Oor B.Oor).1 && !(DblsParetoMin A.Oor B.Oor).2
            then DblsParetoMin A.Ova B.Ova else DblsParetoMin A.Oor B.Oor) := by
        simp [Solution.Compare, hflag, hA, hB, ha, hb, heq]
      cases h1 : (DblsParetoMin A.Oor B.Oor).1 <;> cases h2 : (DblsParetoMin A.Oor B.Oor).2
      · have hc : Solution.Compare prms A B = DblsParetoMin A.Ova B.Ova := by
          rw [hcmp, h1, h2]; rfl
        have hno1 : ¬ParetoDom A.Oor B.Oor := by rw [← hPoor, h1]; simp
        have hno2 : ¬ParetoDom B.Oor A.Oor := by rw [← hPoor2, h2]; simp
        refine ⟨?_, ?_⟩
        · rw [hc, hPova, specDominates_infeas_iff A B ha.ne' hb.ne']
          constructor
          · intro hp; exact Or.inr ⟨heq, Or.inr ⟨hno1, hno2, hp⟩⟩
          · rintro (h | ⟨-, (h | ⟨-, -, hp⟩)⟩)
            · omega
            · exact absurd h hno1
            · exact hp
        · rw [hc, hPova2, specDominates_infeas_iff B A hb.ne' ha.ne']
          constructor
          · intro hp; exact Or.inr ⟨heq.symm, Or.inr ⟨hno2, hno1, hp⟩⟩
          · rintro (h | ⟨-, (h | ⟨-, -, hp⟩)⟩)
            · omega
            · exact absurd h hno2
            · exact hp
      · have hc : Solution.Compare prms A B = DblsParetoMin A.Oor B.Oor := by
          rw [hcmp, h1, h2]; rfl
        have hd1 : ¬ParetoDom A.Oor B.Oor := by rw [← hPoor, h1]; simp
        have hd2 : ParetoDom B.Oor A.Oor := hPoor2.mp h2
        refine ⟨?_, ?_⟩
        · rw [hc, h1, specDominates_infeas_iff A B ha.ne' hb.ne']
          refine iff_of_false (by simp) ?_
          rintro (h | ⟨-, (h | ⟨-, hn2, -⟩)⟩)
          · omega
          · exact hd1 h
          · exact hn2 hd2
        · rw [hc, h2, specDominates_infeas_iff B A hb.ne' ha.ne']
          exact iff_of_true rfl (Or.inr ⟨heq.symm, Or.inl hd2⟩)
      · have hc : Solution.Compare prms A B = DblsParetoMin A.Oor B.Oor := by
          rw [hcmp, h1, h2]; rfl
        have hd1 : ParetoDom A.Oor B.Oor := hPoor.mp h1
        have hd2 : ¬ParetoDom B.Oor A.Oor := by rw [← hPoor2, h2]; simp
        refine ⟨?_, ?_⟩
        · rw [hc, h1, specDominates_infeas_iff A B ha.ne' hb.ne']
          exact iff_of_true rfl (Or.inr ⟨heq, Or.inl hd1⟩)
        · rw [hc, h2, specDominates_infeas_iff B A hb.ne' ha.ne']
          refine iff_of_false (by simp) ?_
          rintro (h | ⟨-, (h | ⟨-, hn2, -⟩)⟩)
          · omega
          · exact hd2 h
          · exact hn2 hd1
      · exact absurd ⟨h1, h2⟩ (dblsParetoMin_not_both A.Oor B.Oor)
    · have hnl : ¬nv A.Oor < nv B.Oor := by omega
      have hc : Solution.Compare prms A B = (false, true) := by
        simp [Solution.Compare, hflag, hA, hB, ha, hb, hgt, hnl]
      refine ⟨?_, ?_⟩
      · rw [hc, specDominates_infeas_iff A B ha.ne' hb.ne']
        refine iff_of_false (by simp) ?_
        rintro (h | ⟨h, -⟩) <;> omega
      · rw [hc, specDominates_infeas_iff B A hb.ne' ha.ne']
        exact iff_of_true rfl (Or.inl hgt)


/-- Comparison flags with every toggle off. -/
def prmsOff : SolParams :=
  { use_solution_comparedneigh := false, use_solution_frontcomparison := false,
    use_solution_distneighfight := false }

/-- Comparison flags with the neighbour-distance comparison enabled. -/
def prmsNeigh : SolParams :=
  { use_solution_comparedneigh := true, use_solution_frontcomparison := false,
    use_solution_distneighfight := false }

/-- Infeasible solution (one positive penalty) with the larger neighbour
distance. -/
def solInfeasFar : Solution :=
  { Id := 0, Ova := [0], Oor := [1], Flt := [0], Int := [0],
    FrontId := 0, DistCrowd := 0, DistNeigh := 1 }

/-- Feasible solution with the smaller neighbour distance. -/
def solFeasNear : Solution :=
  { Id := 1, Ova := [0], Oor := [0], Flt := [0], Int := [0],
    FrontId := 0, DistCrowd := 0, DistNeigh := 0 }

/-- C1 witness: the dominance characterisation applied to a concrete
infeasible/feasible pair (the feasible one dominates). -/
theorem compare_implements_dominance_rule_witness :
    prmsOff.use_solution_comparedneigh = false ∧
    solInfeasFar.Oor.length = solFeasNear.Oor.length ∧
    solInfeasFar.Ova.length = solFeasNear.Ova.length ∧
    (((Solution.Compare prmsOff solInfeasFar solFeasNear).1 = true ↔
        SpecDominates solInfeasFar solFeasNear) ∧
      ((Solution.Compare prmsOff solInfeasFar solFeasNear).2 = true ↔
        SpecDominates solFeasNear solInfeasFar)) :=
  ⟨rfl, rfl, rfl,
    compare_implements_dominance_rule prmsOff solInfeasFar solFeasNear rfl rfl rfl⟩

/-- C2 counterexample: with the neighbour-distance comparison flag enabled,
`Compare` returns both dominance flags true for a concrete pair — `B` is
feasible while `A` is not (so the body reports `B` dominates), and `A` has the
larger neighbour distance (so the deferred override also reports `A`
dominates). -/
theorem compare_both_dominate_cex :
    Solution.Compare prmsNeigh solInfeasFar solFeasNear = (true, true) := by decide

/-- C2 amended: with the neighbour-distance comparison flag disabled, `Compare`
never reports that both solutions dominate each other. -/
theorem compare_never_both_dominate (prms : SolParams) (A B : Solution)
    (hflag : prms.use_solution_comparedneigh = false) :
    ¬((Solution.Compare prms A B).1 = true ∧ (Solution.Compare prms A B).2 = true) := by
  unfold Solution.Compare
  rw [hflag]
  simp only [Bool.false_eq_true, if_false]
  split_ifs <;>
    first
      | exact dblsParetoMin_not_both A.Ova B.Ova
      | exact dblsParetoMin_not_both A.Oor B.Oor
      | simp

/-- C2 amended witness: no double domination on a concrete pair with the
neighbour-distance flag off. -/
theorem compare_never_both_dominate_witness :
    prmsOff.use_solution_comparedneigh = false ∧
    ¬((Solution.Compare prmsOff solInfeasFar solFeasNear).1 = true ∧
      (Solution.Compare prmsOff solInfeasFar solFeasNear).2 = true) :=
  ⟨rfl, compare_never_both_dominate prmsOff solInfeasFar solFeasNear rfl⟩

/-- Go's builtin `copy(dst, src)`: the first `min(len(dst), len(src))` elements
come from `src`, the tail of `dst` is kept; the result has `dst`'s length. -/
def goCopy {α : Type} (dst src : List α) : List α :=
  src.take (min dst.length src.length) ++ dst.drop (min dst.length src.length)

/-- CopyInto copies essential data into B (src/solution.go,
`Solution.CopyInto`): the id is assigned and the four vectors are copied with
Go's `copy`. -/
def Solution.CopyInto (A B : Solution) : Solution :=
  { B with
    Id := A.Id
    Ova := goCopy B.Ova A.Ova
    Oor := goCopy B.Oor A.Oor
    Flt := goCopy B.Flt A.Flt
    Int := goCopy B.Int A.Int }

lemma goCopy_length {α : Type} (dst src : List α) :
    (goCopy dst src).length = dst.length := by
  unfold goCopy
  rw [List.length_append, List.length_take, List.length_drop]
  omega

lemma goCopy_goCopy {α : Type} (dst src : List α) :
    goCopy (goCopy dst src) src = goCopy dst src := by
  have hn : (src.take (min dst.length src.length)).length = min dst.length src.length := by
    rw [List.length_take]
    omega
  have hdrop : (goCopy dst src).drop (min dst.length src.length) =
      dst.drop (min dst.length src.length) := by
    have h := List.drop_left (src.take (min dst.length src.length))
      (dst.drop (min dst.length src.length))
    rw [hn] at h
    exact h
  show src.take (min (goCopy dst src).length src.length) ++
      (goCopy dst src).drop (min (goCopy dst src).length src.length) = goCopy dst src
  rw [goCopy_length, hdrop]
  rfl

/-- C9: CopyInto is idempotent — for solutions with matching vector lengths,
copying `A` into `B` twice leaves exactly the same state as copying once. -/
theorem copyInto_idempotent (A B : Solution)
    (h1 : B.Ova.length = A.Ova.length) (h2 : B.Oor.length = A.Oor.length)
    (h3 : B.Flt.length = A.Flt.length) (h4 : B.Int.length = A.Int.length) :
    Solution.CopyInto A (Solution.CopyInto A B) = Solution.CopyInto A B := by
  unfold Solution.CopyInto
  simp only [goCopy_goCopy]

/-- C9 witness: idempotence of CopyInto on a concrete pair. -/
theorem copyInto_idempotent_witness :
    solFeasNear.Ova.length = solInfeasFar.Ova.length ∧
    solFeasNear.Oor.length = solInfeasFar.Oor.length ∧
    solFeasNear.Flt.length = solInfeasFar.Flt.length ∧
    solFeasNear.Int.length = solInfeasFar.Int.length ∧
    Solution.CopyInto solInfeasFar (Solution.CopyInto solInfeasFar solFeasNear) =
      Solution.CopyInto solInfeasFar solFeasNear :=
  ⟨rfl, rfl, rfl, rfl,
    copyInto_idempotent solInfeasFar solFeasNear rfl rfl rfl rfl⟩

/-- Less-comparator of `solByOva0/1/2` (src/solution.go): strict comparison of
the `n`-th objective value. -/
def solByOvaLess (n : ℕ) (a b : Solution) : Bool :=
  decide (a.Ova.getD n 0 < b.Ova.getD n 0)

/-- Less-comparator of `solByBest` (src/solution.go): equal front ids compare
by larger crowd distance, otherwise by smaller front id. -/
def solByBestLess (a b : Solution) : Bool :=
  if a.FrontId = b.FrontId then decide (b.DistCrowd < a.DistCrowd)
  else decide (a.FrontId < b.FrontId)

/-- SortByOva sorts a slice of solutions in ascending order of the chosen
objective (src/solution.go, `SortByOva`): the `switch` accepts only indices
0, 1 and 2 and panics (`none`) otherwise.  Go's `sort.Sort` is modelled as a
comparison sort ordered by the `Less` method. -/
def SortByOva (s : List Solution) (idxOva : ℤ) : Option (List Solution) :=
  if idxOva = 0 then some (s.mergeSort fun a b => !solByOvaLess 0 b a)
  else if idxOva = 1 then some (s.mergeSort fun a b => !solByOvaLess 1 b a)
  else if idxOva = 2 then some (s.mergeSort fun a b => !solByOvaLess 2 b a)
  else none

/-- SortByBest sorts a slice of solutions with best solutions first
(src/solution.go, `SortByBest`); Go's `sort.Sort` is modelled as a comparison
sort ordered by the `solByBest.Less` method. -/
def SortByBest (s : List Solution) : List Solution :=
  s.mergeSort fun a b => !solByBestLess b a

lemma sorted_mergeSort_byOva (n : ℕ) (s : List Solution) :
    (s.mergeSort fun a b => !solByOvaLess n b a).Pairwise
      (fun a b => a.Ova.getD n 0 ≤ b.Ova.getD n 0) := by
  have h := @List.sorted_mergeSort Solution (fun a b : Solution => !solByOvaLess n b a)
    (fun a b c hab hbc => by
      simp only [solByOvaLess, Bool.not_eq_eq_eq_not, Bool.not_true, decide_eq_false_iff_not,
        not_lt] at hab hbc ⊢
      linarith)
    (fun a b => by
      simp only [solByOvaLess, Bool.or_eq_true, Bool.not_eq_eq_eq_not, Bool.not_true,
        decide_eq_false_iff_not, not_lt]
      rcases le_total (a.Ova.getD n 0) (b.Ova.getD n 0) with h | h
      · exact Or.inl h
      · exact Or.inr h)
    s
  refine h.imp ?_
  intro a b hab
  simp only [solByOvaLess, Bool.not_eq_eq_eq_not, Bool.not_true, decide_eq_false_iff_not,
    not_lt] at hab
  exact hab

/-- C10: SortByOva handles exactly the objective indices 0, 1 and 2 — for
these it returns the slice sorted ascending by that objective, for every other
index it panics (modelled as `none`). -/
theorem sortByOva_only_three_objectives (s : List Solution) (idx : ℤ) :
    ((idx = 0 ∨ idx = 1 ∨ idx = 2) →
      ∃ t, SortByOva s idx = some t ∧ t.Perm s ∧
        t.Pairwise (fun a b => a.Ova.getD idx.toNat 0 ≤ b.Ova.getD idx.toNat 0)) ∧
    (¬(idx = 0 ∨ idx = 1 ∨ idx = 2) → SortByOva s idx = none) := by
  constructor
  · rintro (rfl | rfl | rfl)
    · exact ⟨_, by unfold SortByOva; norm_num, List.mergeSort_perm s _,
        sorted_mergeSort_byOva 0 s⟩
    · exact ⟨_, by unfold SortByOva; norm_num, List.mergeSort_perm s _,
        sorted_mergeSort_byOva 1 s⟩
    · exact ⟨_, by unfold SortByOva; norm_num, List.mergeSort_perm s _,
        sorted_mergeSort_byOva 2 s⟩
  · intro h
    push_neg at h
    obtain ⟨h0, h1, h2⟩ := h
    unfold SortByOva
    rw [if_neg h0, if_neg h1, if_neg h2]

/-- C10 witness: sorting a concrete two-solution slice on objective 0 succeeds,
and index 3 panics. -/
theorem sortByOva_only_three_objectives_witness :
    (((0 : ℤ) = 0 ∨ (0 : ℤ) = 1 ∨ (0 : ℤ) = 2) ∧
      ∃ t, SortByOva [solFeasNear, solInfeasFar] 0 = some t ∧
        t.Perm [solFeasNear, solInfeasFar] ∧
        t.Pairwise (fun a b => a.Ova.getD (0 : ℤ).toNat 0 ≤ b.Ova.getD (0 : ℤ).toNat 0)) ∧
    (¬((3 : ℤ) = 0 ∨ (3 : ℤ) = 1 ∨ (3 : ℤ) = 2) ∧
      SortByOva [solFeasNear, solInfeasFar] 3 = none) :=
  ⟨⟨Or.inl rfl,
    (sortByOva_only_three_objectives [solFeasNear, solInfeasFar] 0).1 (Or.inl rfl)⟩,
   ⟨by decide,
    (sortByOva_only_three_objectives [solFeasNear, solInfeasFar] 3).2 (by decide)⟩⟩

/-- Solution with id 0 whose ranking metrics tie with `solTieId1`. -/
def solTieId0 : Solution :=
  { Id := 0, Ova := [0], Oor := [0], Flt := [0], Int := [0],
    FrontId := 0, DistCrowd := 0, DistNeigh := 0 }

/-- Solution with id 1 whose ranking metrics tie with `solTieId0`. -/
def solTieId1 : Solution :=
  { Id := 1, Ova := [0], Oor := [0], Flt := [0], Int := [0],
    FrontId := 0, DistCrowd := 0, DistNeigh := 0 }

/-- C8 counterexample: the `solByBest` comparator does not resolve front/crowd
ties by solution id — on two solutions with equal front id and equal crowding
distance but different ids it reports neither strictly before the other, and a
`Less`-ordered output of the (unstable) sort may leave them out of id order:
sorting `[id 1, id 0]` keeps that order. -/
theorem sortByBest_no_id_tiebreak_cex :
    solByBestLess solTieId1 solTieId0 = false ∧
    solByBestLess solTieId0 solTieId1 = false ∧
    solTieId0.Id ≠ solTieId1.Id ∧
    SortByBest [solTieId1, solTieId0] = [solTieId1, solTieId0] := by
  refine ⟨by decide, by decide, by decide, ?_⟩
  simp [SortByBest, List.mergeSort, solByBestLess, solTieId0, solTieId1]

lemma not_solByBestLess_iff (a b : Solution) :
    (!solByBestLess b a) = true ↔
      (a.FrontId < b.FrontId ∨ (a.FrontId = b.FrontId ∧ b.DistCrowd ≤ a.DistCrowd)) := by
  unfold solByBestLess
  by_cases h : b.FrontId = a.FrontId
  · rw [if_pos h]
    simp only [Bool.not_eq_eq_eq_not, Bool.not_true, decide_eq_false_iff_not, not_lt]
    constructor
    · intro hle
      exact Or.inr ⟨h.symm, hle⟩
    · rintro (hlt | ⟨-, hle⟩)
      · exact absurd h (by omega)
      · exact hle
  · rw [if_neg h]
    simp only [Bool.not_eq_eq_eq_not, Bool.not_true, decide_eq_false_iff_not, not_lt]
    constructor
    · intro hle
      exact Or.inl (lt_of_le_of_ne hle (fun e => h e.symm))
    · rintro (hlt | ⟨he, -⟩)
      · exact hlt.le
      · exact he.le

/-- C8 amended: SortByBest returns a permutation of its input ordered
best-first — nondecreasing in front id and, within equal front ids,
nonincreasing in crowding distance; the comparator is deterministic (no coin)
but ignores the solution id entirely, so tied solutions are left in whatever
order the underlying unstable sort produces. -/
theorem sortByBest_sorts_best_first (s : List Solution) :
    (SortByBest s).Perm s ∧
    (SortByBest s).Pairwise
      (fun a b => a.FrontId < b.FrontId ∨
        (a.FrontId = b.FrontId ∧ b.DistCrowd ≤ a.DistCrowd)) ∧
    (∀ a b : Solution, ∀ i j : ℤ,
      solByBestLess { a with Id := i } { b with Id := j } = solByBestLess a b) := by
  refine ⟨List.mergeSort_perm s _, ?_, fun a b i j => rfl⟩
  have h := @List.sorted_mergeSort Solution (fun a b : Solution => !solByBestLess b a)
    (fun a b c hab hbc => by
      rw [not_solByBestLess_iff] at hab hbc ⊢
      rcases hab with h1 | ⟨h1, hc1⟩ <;> rcases hbc with h2 | ⟨h2, hc2⟩
      · exact Or.inl (h1.trans h2)
      · exact Or.inl (by omega)
      · exact Or.inl (by omega)
      · exact Or.inr ⟨h1.trans h2, hc2.trans hc1⟩)
    (fun a b => by
      rw [Bool.or_eq_true, not_solByBestLess_iff, not_solByBestLess_iff]
      rcases lt_trichotomy a.FrontId b.FrontId with h | h | h
      · exact Or.inl (Or.inl h)
      · rcases le_total b.DistCrowd a.DistCrowd with hc | hc
        · exact Or.inl (Or.inr ⟨h, hc⟩)
        · exact Or.inr (Or.inr ⟨h.symm, hc⟩)
      · exact Or.inr (Or.inl h))
    s
  refine h.imp ?_
  intro a b hab
  exact (not_solByBestLess_iff a b).mp hab

/-- Individual of the Individual-based engine (src/island.go); only the fields
read by the ranking, demerit and tournament code are modelled (the file
individual.go defining the struct is not under src/). -/
structure Individual where
  Id : ℤ
  Ovas : List ℚ
  Oors : List ℚ
  Demerit : ℚ
  FrontId : ℤ
  DistCrowd : ℚ
  DistNeigh : ℚ
deriving DecidableEq

/-- Configuration fields of `ConfParams` read by the island code modelled here
(the file defining the struct is not under src/). -/
structure ConfParams where
  Nova : ℕ
  Noor : ℕ
  CompProb : Bool
  CdistOff : Bool
deriving DecidableEq

/-- Modelled from the spec: `IndCompareDet` (individual.go, not under src/) —
the constraint-aware deterministic dominance of §4.3, the same algorithm as the
body of `Solution.Compare`. -/
def IndCompareDet (A B : Individual) : Bool × Bool :=
  let anv := countPosTo A.Oors A.Oors.length
  let bnv := countPosTo B.Oors A.Oors.length
  if 0 < anv then
    if 0 < bnv then
      if anv < bnv then (true, false)
      else if bnv < anv then (false, true)
      else
        let r := DblsParetoMin A.Oors B.Oors
        if !r.1 && !r.2 then DblsParetoMin A.Ovas B.Ovas else r
    else (false, true)
  else
    if 0 < bnv then (true, false)
    else DblsParetoMin A.Ovas B.Ovas

/-- Probability handed to `rnd.FlipCoin` by `Island.tournament`
(src/island.go): 0.5, bumped to 0.6 or 0.4 by a neighbour-distance
difference. -/
def neighProb (A B : Individual) : ℚ :=
  let p0 : ℚ := 0.5
  let p1 : ℚ := if B.DistNeigh < A.DistNeigh then 0.6 else p0
  if A.DistNeigh < B.DistNeigh then 0.4 else p1

/-- tournament performs the tournament between two individuals
(src/island.go, `Island.tournament`).  The probabilistic comparison
`IndCompareProb` (not under src/) is passed in as `probCmp`; the coin is
`flip`. -/
def tournament (probCmp : Individual → Individual → Bool) (C : ConfParams)
    (A B : Individual) (flip : ℚ → Bool) : Bool :=
  if C.CompProb then probCmp A B
  else
    let r := IndCompareDet A B
    if r.1 then true
    else if r.2 then false
    else if decide (A.FrontId ≠ B.FrontId) || C.CdistOff then flip (neighProb A B)
    else if B.DistCrowd < A.DistCrowd then true
    else if A.DistCrowd = B.DistCrowd then flip (neighProb A B)
    else false

/-- Fight implements the competition between A and B (src/solution.go,
`Solution.Fight`): dominance first, then optional front/crowd and
neighbour-distance tie-breaks, finally `rnd.FlipCoin(0.5)`. -/
def Solution.Fight (prms : SolParams) (A B : Solution) (flip : ℚ → Bool) : Bool :=
  let r := Solution.Compare prms A B
  if r.1 then true
  else if r.2 then false
  else
    let coin := flip 0.5
    let afterNeigh :=
      if prms.use_solution_distneighfight then
        if B.DistNeigh < A.DistNeigh then true
        else if A.DistNeigh < B.DistNeigh then false
        else coin
      else coin
    if prms.use_solution_frontcomparison && decide (A.FrontId = B.FrontId) then
      if B.DistCrowd < A.DistCrowd then true
      else if A.DistCrowd < B.DistCrowd then false
      else afterNeigh
    else afterNeigh

lemma neighProb_eq_half (A B : Individual) (h : A.DistNeigh = B.DistNeigh) :
    neighProb A B = 0.5 := by
  unfold neighProb
  rw [h]
  simp

/-- C4: in both tournament implementations (Island.tournament over individuals
and Solution.Fight over solutions), whenever neither contestant dominates the
other and all distance criteria tie (equal crowding distance and equal
neighbour distance), the winner is decided by one coin flip with probability
exactly 0.5 — never a biased one. -/
theorem tournament_tie_fallback_unbiased :
    (∀ (probCmp : Individual → Individual → Bool) (C : ConfParams) (A B : Individual)
        (flip : ℚ → Bool),
      C.CompProb = false → IndCompareDet A B = (false, false) →
      A.DistCrowd = B.DistCrowd → A.DistNeigh = B.DistNeigh →
      tournament probCmp C A B flip = flip 0.5) ∧
    (∀ (prms : SolParams) (A B : Solution) (flip : ℚ → Bool),
      Solution.Compare prms A B = (false, false) →
      A.DistCrowd = B.DistCrowd → A.DistNeigh = B.DistNeigh →
      Solution.Fight prms A B flip = flip 0.5) := by
  constructor
  · intro probCmp C A B flip hcp hdet hcd hdn
    unfold tournament
    rw [hcp, hdet, neighProb_eq_half A B hdn]
    by_cases hf : (decide (A.FrontId ≠ B.FrontId) || C.CdistOff) = true
    · simp [hf, hcd]
    · simp [hf, hcd]
  · intro prms A B flip hcmp hcd hdn
    unfold Solution.Fight
    rw [hcmp, hcd, hdn]
    simp

/-- Trivial coin that always reports heads. -/
def coinHeads : ℚ → Bool := fun _ => true

/-- Trivial probabilistic comparison that always reports a loss. -/
def probCmpNever : Individual → Individual → Bool := fun _ _ => false

/-- Configuration with the probabilistic comparison and the crowd-distance
switch both off. -/
def confDet : ConfParams := { Nova := 1, Noor := 1, CompProb := false, CdistOff := false }

/-- Feasible individual tying with `indTie1` on every criterion. -/
def indTie0 : Individual :=
  { Id := 0, Ovas := [0], Oors := [0], Demerit := 0,
    FrontId := 0, DistCrowd := 0, DistNeigh := 0 }

/-- Feasible individual tying with `indTie0` on every criterion. -/
def indTie1 : Individual :=
  { Id := 1, Ovas := [0], Oors := [0], Demerit := 0,
    FrontId := 0, DistCrowd := 0, DistNeigh := 0 }

/-- C4 witness: the unbiased-coin fallback on a concrete tied pair, for the
individual tournament and the solution fight. -/
theorem tournament_tie_fallback_unbiased_witness :
    (confDet.CompProb = false ∧ IndCompareDet indTie0 indTie1 = (false, false) ∧
      indTie0.DistCrowd = indTie1.DistCrowd ∧ indTie0.DistNeigh = indTie1.DistNeigh ∧
      tournament probCmpNever confDet indTie0 indTie1 coinHeads = coinHeads 0.5) ∧
    (Solution.Compare prmsOff solTieId0 solTieId1 = (false, false) ∧
      solTieId0.DistCrowd = solTieId1.DistCrowd ∧
      solTieId0.DistNeigh = solTieId1.DistNeigh ∧
      Solution.Fight prmsOff solTieId0 solTieId1 coinHeads = coinHeads 0.5) :=
  ⟨⟨rfl, by decide, rfl, rfl,
    tournament_tie_fallback_unbiased.1 probCmpNever confDet indTie0 indTie1 coinHeads
      rfl (by decide) rfl rfl⟩,
   ⟨by decide, rfl, rfl,
    tournament_tie_fallback_unbiased.2 prmsOff solTieId0 solTieId1 coinHeads
      (by decide) rfl rfl⟩⟩

/-- Parameters hold all configuration parameters (src/island.go, second
`Parameters` record — the version with `Nsol`/`Ncpu` whose `CalcDerived` is at
the cited lines); only the fields read or written by `CalcDerived` are
modelled. -/
structure Parameters where
  Nova : ℤ
  Noor : ℤ
  Nsol : ℤ
  Ncpu : ℤ
  Tf : ℤ
  DtExc : ℤ
  Pll : Bool
  Seed : ℤ
  FltMin : List ℚ
  FltMax : List ℚ
  IntMin : List ℤ
  IntMax : List ℤ
  Nflt : ℕ
  Nint : ℕ
  DelFlt : List ℚ
  DelInt : List ℤ

/-- Clamping of the time parameters inside `CalcDerived` (src/island.go):
`Tf < 1` becomes 1, `DtExc < 1` becomes 1. -/
def clampTime (o : Parameters) : Parameters :=
  let o := if o.Tf < 1 then { o with Tf := 1 } else o
  if o.DtExc < 1 then { o with DtExc := 1 } else o

/-- Bounds section of `CalcDerived` (src/island.go): requires some bounds and
matching lengths (`chk.IntAssert`), then computes `Nflt`, `Nint`, `DelFlt` and
`DelInt`. -/
def deriveBounds (o : Parameters) : Except String Parameters :=
  let nflt := o.FltMin.length
  let nint := o.IntMin.length
  if nflt = 0 ∧ nint = 0 then
    .error "either floats and ints must be set (via FltMin/Max or IntMin/Max)"
  else if o.FltMax.length ≠ nflt then .error "IntAssert len(FltMax)"
  else if o.IntMax.length ≠ nint then .error "IntAssert len(IntMax)"
  else
    .ok { o with
      Nflt := nflt
      Nint := nint
      DelFlt := (o.FltMax.zip o.FltMin).map (fun p => p.1 - p.2)
      DelInt := (o.IntMax.zip o.IntMin).map (fun p => p.1 - p.2) }

/-- CalcDerived computes derived variables and checks consistency
(src/island.go, `Parameters.CalcDerived`): panics (modelled as `.error`) on
nova < 1, nsol < 6 or ncpu > nsol/2 (after coercing ncpu < 2 to a serial run),
then clamps the time parameters and runs the bounds section.  The trailing
`rnd.Init(o.Seed)` only seeds the global generator and is not modelled. -/
def CalcDerived (o : Parameters) : Except String Parameters :=
  if o.Nova < 1 then .error "number of objective values (nova) must be greater than 0"
  else if o.Nsol < 6 then .error "number of solutions must greater than 6"
  else
    let o := if o.Ncpu < 2 then { o with Ncpu := 1, Pll := false, DtExc := 1 } else o
    if o.Nsol / 2 < o.Ncpu then
      .error "number of CPU must be smaller than or equal to half the number of solutions"
    else deriveBounds (clampTime o)

/-- Valid odd-population configuration: `Nsol = 7` is odd but passes every
check `CalcDerived` actually performs. -/
def prmOdd : Parameters :=
  { Nova := 1, Noor := 0, Nsol := 7, Ncpu := 2, Tf := 100, DtExc := 10,
    Pll := true, Seed := 0, FltMin := [0], FltMax := [1], IntMin := [], IntMax := [],
    Nflt := 0, Nint := 0, DelFlt := [], DelInt := [] }

/-- C5 counterexample: the claim lists "nsol not even" among the failure
conditions, but `CalcDerived` of the cited code never checks parity — the
concrete configuration `prmOdd` with `Nsol = 7` (odd) succeeds. -/
theorem calcDerived_accepts_odd_nsol_cex :
    (CalcDerived prmOdd).isOk = true ∧ prmOdd.Nsol % 2 = 1 := by
  constructor
  · rfl
  · decide

/-- Validity of a configuration exactly as `CalcDerived` checks it. -/
def ValidDerived (p : Parameters) : Prop :=
  1 ≤ p.Nova ∧ 6 ≤ p.Nsol ∧
  (if p.Ncpu < 2 then (1 : ℤ) else p.Ncpu) ≤ p.Nsol / 2 ∧
  ¬(p.FltMin.length = 0 ∧ p.IntMin.length = 0) ∧
  p.FltMax.length = p.FltMin.length ∧ p.IntMax.length = p.IntMin.length

lemma isOk_error {ε α : Type} (e : ε) : (Except.error e : Except ε α).isOk = false := rfl

lemma isOk_ok {ε α : Type} (a : α) : (Except.ok a : Except ε α).isOk = true := rfl

lemma getD_zip_map_sub {α : Type} [SubtractionMonoid α] (u v : List α) (i : ℕ)
    (hi : i < u.length) (hiv : i < v.length) :
    ((u.zip v).map (fun p => p.1 - p.2)).getD i 0 = u.getD i 0 - v.getD i 0 := by
  induction u generalizing v i with
  | nil => simp at hi
  | cons a t ih =>
    cases v with
    | nil => simp at hiv
    | cons b s =>
      cases i with
      | zero => simp
      | succ j =>
        simp only [List.zip_cons_cons, List.map_cons, List.getD_cons_succ]
        exact ih s j (by simpa using hi) (by simpa using hiv)

lemma clampTime_proj (o : Parameters) :
    (clampTime o).FltMin = o.FltMin ∧ (clampTime o).FltMax = o.FltMax ∧
    (clampTime o).IntMin = o.IntMin ∧ (clampTime o).IntMax = o.IntMax := by
  simp only [clampTime]
  split_ifs <;> exact ⟨rfl, rfl, rfl, rfl⟩

lemma deriveBounds_ok_iff (o : Parameters) :
    ((deriveBounds o).isOk = true ↔
      (¬(o.FltMin.length = 0 ∧ o.IntMin.length = 0) ∧
        o.FltMax.length = o.FltMin.length ∧ o.IntMax.length = o.IntMin.length)) ∧
    (∀ q, deriveBounds o = .ok q →
      q.DelFlt = (o.FltMax.zip o.FltMin).map (fun p => p.1 - p.2) ∧
      q.DelInt = (o.IntMax.zip o.IntMin).map (fun p => p.1 - p.2)) := by
  simp only [deriveBounds]
  split_ifs with hb h6 h7
  · exact ⟨iff_of_false (by rw [isOk_error]; simp) (fun h => h.1 hb),
      by rintro q hq; cases hq⟩
  · exact ⟨iff_of_false (by rw [isOk_error]; simp) (fun h => h6 h.2.1),
      by rintro q hq; cases hq⟩
  · exact ⟨iff_of_false (by rw [isOk_error]; simp) (fun h => h7 h.2.2),
      by rintro q hq; cases hq⟩
  · refine ⟨iff_of_true (by rw [isOk_ok]) ⟨hb, not_not.mp h6, not_not.mp h7⟩, ?_⟩
    intro q hq
    injection hq with h
    subst h
    exact ⟨rfl, rfl⟩

/-- C5 amended: `CalcDerived` succeeds exactly when nova ≥ 1, nsol ≥ 6, the
effective ncpu (coerced to 1 when below 2) is at most nsol/2, some bounds are
given and the bound lengths match — parity of nsol is never checked — and on
success it computes DelFlt[i] = FltMax[i] − FltMin[i] and
DelInt[i] = IntMax[i] − IntMin[i]. -/
theorem calcDerived_ok_iff (p : Parameters) :
    ((CalcDerived p).isOk = true ↔ ValidDerived p) ∧
    (∀ q, CalcDerived p = .ok q →
      q.DelFlt.length = p.FltMin.length ∧ q.DelInt.length = p.IntMin.length ∧
      (∀ i < p.FltMin.length, q.DelFlt.getD i 0 = p.FltMax.getD i 0 - p.FltMin.getD i 0) ∧
      (∀ i < p.IntMin.length, q.DelInt.getD i 0 = p.IntMax.getD i 0 - p.IntMin.getD i 0)) := by
  simp only [CalcDerived]
  by_cases h1 : p.Nova < 1
  · rw [if_pos h1]
    exact ⟨iff_of_false (by rw [isOk_error]; simp) (fun hv => by have := hv.1; omega),
      by rintro q hq; cases hq⟩
  rw [if_neg h1]
  by_cases h2 : p.Nsol < 6
  · rw [if_pos h2]
    exact ⟨iff_of_false (by rw [isOk_error]; simp) (fun hv => by have := hv.2.1; omega),
      by rintro q hq; cases hq⟩
  rw [if_neg h2]
  by_cases h3 : p.Ncpu < 2
  · rw [if_pos h3]
    simp only []
    by_cases h4 : p.Nsol / 2 < (1 : ℤ)
    · exact absurd h4 (by omega)
    rw [if_neg h4]
    obtain ⟨hio, hoq⟩ :=
      deriveBounds_ok_iff (clampTime { p with Ncpu := 1, Pll := false, DtExc := 1 })
    obtain ⟨e1, e2, e3, e4⟩ := clampTime_proj { p with Ncpu := 1, Pll := false, DtExc := 1 }
    rw [e1, e2, e3, e4] at hio hoq
    simp only [] at hio hoq
    constructor
    · rw [hio]
      unfold ValidDerived
      rw [if_pos h3]
      constructor
      · rintro ⟨hb, h6, h7⟩
        exact ⟨by omega, by omega, by omega, hb, h6, h7⟩
      · rintro ⟨-, -, -, hb, h6, h7⟩
        exact ⟨hb, h6, h7⟩
    · intro q hq
      obtain ⟨hb, h6, h7⟩ := hio.mp (by rw [hq, isOk_ok])
      obtain ⟨d1, d2⟩ := hoq q hq
      refine ⟨by rw [d1]; simp [List.length_zip, h6],
        by rw [d2]; simp [List.length_zip, h7], ?_, ?_⟩
      · intro i hi
        rw [d1]
        exact getD_zip_map_sub p.FltMax p.FltMin i (by omega) hi
      · intro i hi
        rw [d2]
        exact getD_zip_map_sub p.IntMax p.IntMin i (by omega) hi
  · rw [if_neg h3]
    by_cases h4 : p.Nsol / 2 < p.Ncpu
    · rw [if_pos h4]
      refine ⟨iff_of_false (by rw [isOk_error]; simp) ?_, by rintro q hq; cases hq⟩
      rintro ⟨-, -, hc, -⟩
      rw [if_neg h3] at hc
      omega
    rw [if_neg h4]
    obtain ⟨hio, hoq⟩ := deriveBounds_ok_iff (clampTime p)
    obtain ⟨e1, e2, e3, e4⟩ := clampTime_proj p
    rw [e1, e2, e3, e4] at hio hoq
    constructor
    · rw [hio]
      unfold ValidDerived
      rw [if_neg h3]
      constructor
      · rintro ⟨hb, h6, h7⟩
        exact ⟨by omega, by omega, by omega, hb, h6, h7⟩
      · rintro ⟨-, -, -, hb, h6, h7⟩
        exact ⟨hb, h6, h7⟩
    · intro q hq
      obtain ⟨hb, h6, h7⟩ := hio.mp (by rw [hq, isOk_ok])
      obtain ⟨d1, d2⟩ := hoq q hq
      refine ⟨by rw [d1]; simp [List.length_zip, h6],
        by rw [d2]; simp [List.length_zip, h7], ?_, ?_⟩
      · intro i hi
        rw [d1]
        exact getD_zip_map_sub p.FltMax p.FltMin i (by omega) hi
      · intro i hi
        rw [d2]
        exact getD_zip_map_sub p.IntMax p.IntMin i (by omega) hi

/-- Valid even-population configuration used as witness input. -/
def prmEven : Parameters :=
  { Nova := 1, Noor := 0, Nsol := 8, Ncpu := 2, Tf := 100, DtExc := 10,
    Pll := true, Seed := 0, FltMin := [0], FltMax := [1], IntMin := [], IntMax := [],
    Nflt := 0, Nint := 0, DelFlt := [], DelInt := [] }

/-- C5 amended witness: the characterisation applied to a concrete valid
configuration. -/
theorem calcDerived_ok_iff_witness :
    ((CalcDerived prmEven).isOk = true ↔ ValidDerived prmEven) ∧
    ((CalcDerived prmEven).isOk = true) ∧ ValidDerived prmEven :=
  ⟨(calcDerived_ok_iff prmEven).1, rfl,
    (calcDerived_ok_iff prmEven).1.mp rfl⟩

/-- IEEE float64 value: a finite rational or one of the non-finite points.
Used where finiteness matters (the objective-evaluation claim). -/
inductive FVal
  | fin (q : ℚ)
  | pinf
  | ninf
  | nan
deriving DecidableEq

/-- IEEE `x < 0` test: negative finite values and −∞; false for NaN. -/
def FVal.ltZero : FVal → Bool
  | .fin q => decide (q < 0)
  | .ninf => true
  | _ => false

/-- IEEE finiteness test. -/
def FVal.isFinite : FVal → Bool
  | .fin _ => true
  | _ => false

/-- Individual as seen by `CalcOvs`: only the objective and out-of-range
vectors written by the user function are relevant, kept as IEEE values. -/
structure IndF where
  Ovas : List FVal
  Oors : List FVal
deriving DecidableEq

/-- CalcOvs computes objective and out-of-range values (src/island.go,
`Island.CalcOvs`): for each individual it invokes the user objective function
(`eval`, modelled as a pure update of the individual), increments the
evaluation counter, and panics (modelled as `.error`) as soon as some
out-of-range value is negative.  No other check is performed. -/
def CalcOvs (eval : IndF → IndF) (pop : List IndF) (nfeval : ℕ) :
    Except String (List IndF × ℕ) :=
  match pop with
  | [] => .ok ([], nfeval)
  | ind :: rest =>
    let ind := eval ind
    let nfeval := nfeval + 1
    if ind.Oors.any FVal.ltZero then
      .error "out-of-range values must be positive (or zero) indicating the positive distance to constraints"
    else
      match CalcOvs eval rest nfeval with
      | .ok (l, n) => .ok (ind :: l, n)
      | .error e => .error e

/-- Objective function writing a non-finite objective value and a zero
(feasible) penalty. -/
def evalInfObjective : IndF → IndF :=
  fun ind => { ind with Ovas := [.pinf], Oors := [.fin 0] }

/-- C6 counterexample: an evaluation writing a non-finite objective (+∞) with
non-negative penalties makes `CalcOvs` succeed — the code only checks for
negative out-of-range values and never checks objective finiteness, while the
claim says evaluation fails iff a negative penalty or a non-finite objective
is produced. -/
theorem calcOvs_accepts_nonfinite_cex :
    CalcOvs evalInfObjective [{ Ovas := [], Oors := [] }] 0 =
      .ok ([{ Ovas := [.pinf], Oors := [.fin 0] }], 1) ∧
    (evalInfObjective { Ovas := [], Oors := [] }).Ovas.all FVal.isFinite = false := by
  constructor
  · rfl
  · rfl

/-- C6 amended: `CalcOvs` fails iff the user objective function writes some
negative out-of-range component for some individual of the population; when
it succeeds, every individual was evaluated, the counter was incremented once
per individual, and objective values — finite or not — are accepted
unchanged. -/
theorem calcOvs_error_iff (eval : IndF → IndF) (pop : List IndF) (n : ℕ) :
    ((CalcOvs eval pop n).isOk = true ↔
      ∀ ind ∈ pop, (eval ind).Oors.any FVal.ltZero = false) ∧
    (∀ out m, CalcOvs eval pop n = .ok (out, m) →
      out = pop.map eval ∧ m = n + pop.length) := by
  induction pop generalizing n with
  | nil =>
    refine ⟨by simp [CalcOvs, isOk_ok], ?_⟩
    intro out m h
    simp only [CalcOvs, Except.ok.injEq, Prod.mk.injEq] at h
    simp [← h.1, ← h.2]
  | cons ind rest ih =>
    obtain ⟨ih1, ih2⟩ := ih (n + 1)
    constructor
    · simp only [CalcOvs]
      by_cases hneg : (eval ind).Oors.any FVal.ltZero = true
      · rw [if_pos hneg]
        simp only [isOk_error, Bool.false_eq_true, false_iff]
        intro hall
        exact absurd (hall ind (by simp)) (by simp [hneg])
      · rw [if_neg hneg]
        cases hc : CalcOvs eval rest (n + 1) with
        | ok val =>
          simp only [isOk_ok, true_iff]
          intro j hj
          rcases List.mem_cons.mp hj with rfl | hjr
          · simpa using hneg
          · have := ih1.mp (by rw [hc, isOk_ok])
            exact this j hjr
        | error e =>
          simp only [isOk_error, Bool.false_eq_true, false_iff]
          intro hall
          have : (CalcOvs eval rest (n + 1)).isOk = true :=
            ih1.mpr (fun j hj => hall j (List.mem_cons_of_mem _ hj))
          rw [hc, isOk_error] at this
          cases this
    · intro out m h
      simp only [CalcOvs] at h
      by_cases hneg : (eval ind).Oors.any FVal.ltZero = true
      · rw [if_pos hneg] at h
        cases h
      · rw [if_neg hneg] at h
        cases hc : CalcOvs eval rest (n + 1) with
        | ok val =>
          rw [hc] at h
          obtain ⟨l, k⟩ := val
          simp only [Except.ok.injEq, Prod.mk.injEq] at h
          obtain ⟨hrl, hrk⟩ := ih2 l k hc
          rw [← h.1, ← h.2, hrl, hrk]
          constructor
          · simp
          · simp only [List.length_cons]
            omega
        | error e =>
          rw [hc] at h
          cases h

/-- Objective function writing fixed feasible values. -/
def evalFeasConst : IndF → IndF :=
  fun ind => { ind with Ovas := [.fin 2], Oors := [.fin 0] }

/-- C6 amended witness: the characterisation applied to a concrete population
of two individuals with a well-behaved objective function. -/
theorem calcOvs_error_iff_witness :
    ((CalcOvs evalFeasConst [{ Ovas := [], Oors := [] }, { Ovas := [.fin 1], Oors := [.fin 1] }] 5).isOk = true ↔
      ∀ ind ∈ [({ Ovas := [], Oors := [] } : IndF), { Ovas := [.fin 1], Oors := [.fin 1] }],
        (evalFeasConst ind).Oors.any FVal.ltZero = false) ∧
    ((CalcOvs evalFeasConst [{ Ovas := [], Oors := [] }, { Ovas := [.fin 1], Oors := [.fin 1] }] 5).isOk = true) :=
  ⟨(calcOvs_error_iff evalFeasConst
      [{ Ovas := [], Oors := [] }, { Ovas := [.fin 1], Oors := [.fin 1] }] 5).1,
   (calcOvs_error_iff evalFeasConst
      [{ Ovas := [], Oors := [] }, { Ovas := [.fin 1], Oors := [.fin 1] }] 5).1.mpr (by decide)⟩

/-- FilterPairs generates the two parent-index lists from the selected indices
(src/island.go, `FilterPairs`): consecutive selections form pairs; on a
collision (`a = b`) the second member is replaced by the first non-equal entry
of a freshly shuffled pool of the selections (the k-th collision reads shuffle
`sh k`; if the pool holds no non-equal entry, `b` is left unchanged). -/
def FilterPairs (sh : ℕ → List ℤ) (k : ℕ) (l : List ℤ) : List (ℤ × ℤ) :=
  match l with
  | a :: b :: rest =>
    if a = b then
      let b := ((sh k).find? (fun s => decide (s ≠ a))).getD b
      (a, b) :: FilterPairs sh (k + 1) rest
    else (a, b) :: FilterPairs sh k rest
  | _ => []

/-- C7 counterexample: with the selection list `[0, 0]` every shuffle of the
pool equals `[0, 0]`, no non-equal replacement exists, and FilterPairs mates
parent 0 with itself — the produced pair has equal members, contradicting the
claim that no pair places a parent with itself. -/
theorem filterPairs_self_pair_cex :
    FilterPairs (fun _ => [0, 0]) 0 [0, 0] = [(0, 0)] := by decide

/-- C7 amended: for an even-length selection list, FilterPairs yields exactly
n/2 pairs; provided the selections contain at least two distinct indices (so
that every shuffled pool holds a non-equal replacement), no pair places a
parent with itself.  (When all selections are equal, the colliding pair keeps
its equal members — the counterexample.) -/
theorem filterPairs_pairs_distinct (sh : ℕ → List ℤ) (selinds : List ℤ)
    (hsh : ∀ k, (sh k).Perm selinds)
    (hdistinct : ∃ x ∈ selinds, ∃ y ∈ selinds, x ≠ y) :
    ∀ k l, 2 ∣ l.length →
      ((FilterPairs sh k l).length = l.length / 2 ∧
        ∀ p ∈ FilterPairs sh k l, p.1 ≠ p.2) := by
  have hrepl : ∀ (k : ℕ) (a : ℤ), ∃ s ∈ sh k, s ≠ a := by
    intro k a
    obtain ⟨x, hx, y, hy, hxy⟩ := hdistinct
    by_cases hxa : x = a
    · exact ⟨y, ((hsh k).mem_iff).mpr hy, by omega⟩
    · exact ⟨x, ((hsh k).mem_iff).mpr hx, hxa⟩
  suffices h : ∀ n k l, l.length ≤ n → 2 ∣ l.length →
      ((FilterPairs sh k l).length = l.length / 2 ∧
        ∀ p ∈ FilterPairs sh k l, p.1 ≠ p.2) by
    intro k l hl
    exact h l.length k l le_rfl hl
  intro n
  induction n with
  | zero =>
    intro k l hl hdvd
    have : l = [] := List.length_eq_zero.mp (by omega)
    subst this
    exact ⟨rfl, by simp [FilterPairs]⟩
  | succ n ih =>
    intro k l hl hdvd
    rcases l with - | ⟨a, rest1⟩
    · exact ⟨rfl, by simp [FilterPairs]⟩
    rcases rest1 with - | ⟨b, rest⟩
    · simp at hdvd
    have hlen : (a :: b :: rest).length = rest.length + 2 := by simp
    have hrest : rest.length ≤ n := by
      rw [hlen] at hl
      omega
    have hdr : 2 ∣ rest.length := by
      rw [hlen] at hdvd
      omega
    by_cases hab : a = b
    · obtain ⟨ihl, ihp⟩ := ih (k + 1) rest hrest hdr
      constructor
      · simp only [FilterPairs, if_pos hab, List.length_cons, ihl, hlen]
        omega
      · intro p hp
        simp only [FilterPairs, if_pos hab, List.mem_cons] at hp
        rcases hp with rfl | hpr
        · obtain ⟨s, hs, hsa⟩ := hrepl k a
          have hex : ∃ x ∈ sh k, (fun s => decide (s ≠ a)) x = true :=
            ⟨s, hs, by simpa using hsa⟩
          have hsome : ((sh k).find? (fun s => decide (s ≠ a))).isSome = true :=
            List.find?_isSome.mpr hex
          obtain ⟨c, hc⟩ := Option.isSome_iff_exists.mp hsome
          have hca : c ≠ a := by simpa using List.find?_some hc
          show a ≠ ((sh k).find? (fun s => decide (s ≠ a))).getD b
          rw [hc]
          simp only [Option.getD_some]
          exact fun e => hca e.symm
        · exact ihp p hpr
    · obtain ⟨ihl, ihp⟩ := ih k rest hrest hdr
      constructor
      · simp only [FilterPairs, if_neg hab, List.length_cons, ihl, hlen]
        omega
      · intro p hp
        simp only [FilterPairs, if_neg hab, List.mem_cons] at hp
        rcases hp with rfl | hpr
        · exact hab
        · exact ihp p hpr

/-- C7 amended witness: a concrete selection list with a collision (0,0),
repaired from the shuffled pool `[1, 0, 0, 1]`, yields two disjoint pairs. -/
theorem filterPairs_pairs_distinct_witness :
    (∀ k : ℕ, ((fun _ => [1, 0, 0, 1] : ℕ → List ℤ) k).Perm [0, 0, 1, 1]) ∧
    (∃ x ∈ ([0, 0, 1, 1] : List ℤ), ∃ y ∈ ([0, 0, 1, 1] : List ℤ), x ≠ y) ∧
    2 ∣ ([0, 0, 1, 1] : List ℤ).length ∧
    ((FilterPairs (fun _ => [1, 0, 0, 1]) 0 [0, 0, 1, 1]).length =
        ([0, 0, 1, 1] : List ℤ).length / 2 ∧
      ∀ p ∈ FilterPairs (fun _ => [1, 0, 0, 1]) 0 [0, 0, 1, 1], p.1 ≠ p.2) :=
  ⟨fun k => by show ([1, 0, 0, 1] : List ℤ).Perm [0, 0, 1, 1]; decide, by decide, by decide,
    filterPairs_pairs_distinct (fun _ => [1, 0, 0, 1]) [0, 0, 1, 1]
      (fun k => by show ([1, 0, 0, 1] : List ℤ).Perm [0, 0, 1, 1]; decide)
      (by decide) 0 [0, 0, 1, 1] (by decide)⟩

/-- Tolerance `1e-16` passed by `CalcDemeritsCdistAndSort` to `utl.Scaling`. -/
def scalTol : ℚ := 1 / 10 ^ 16

/-- Running minimum starting from the first element (`xmin, xmax = x[0], x[0]`
loop of `utl.Scaling`). -/
def listMin (x : List ℚ) : ℚ := x.foldl min (x.headD 0)

/-- Running maximum starting from the first element. -/
def listMax (x : List ℚ) : ℚ := x.foldl max (x.headD 0)

/-- Modelled from the spec: `utl.Scaling` (gosl, not under src/) as called with
`ds = 0`, `tol = 1e-16`, `reverse = false` — scaled series in [0, 1]:
`s[i] = ds + (x[i] − xmin)/(xmax − xmin)`, all `ds` when the range is below
the tolerance, and the pre-allocated zero slice when fewer than two values
exist. -/
def Scaling (x : List ℚ) (ds tol : ℚ) : List ℚ :=
  if x.length < 2 then List.replicate x.length 0
  else
    let xmin := listMin x
    let xmax := listMax x
    let dx := xmax - xmin
    if dx < tol then x.map (fun _ => ds)
    else x.map (fun xi => ds + (xi - xmin) / dx)

lemma foldl_min_le (l : List ℚ) (a : ℚ) :
    l.foldl min a ≤ a ∧ ∀ b ∈ l, l.foldl min a ≤ b := by
  induction l generalizing a with
  | nil => simp
  | cons c t ih =>
    obtain ⟨ih1, ih2⟩ := ih (min a c)
    refine ⟨le_trans ih1 (min_le_left a c), ?_⟩
    intro b hb
    rcases List.mem_cons.mp hb with rfl | hbt
    · exact le_trans ih1 (min_le_right a b)
    · exact ih2 b hbt

lemma le_foldl_max (l : List ℚ) (a : ℚ) :
    a ≤ l.foldl max a ∧ ∀ b ∈ l, b ≤ l.foldl max a := by
  induction l generalizing a with
  | nil => simp
  | cons c t ih =>
    obtain ⟨ih1, ih2⟩ := ih (max a c)
    refine ⟨le_trans (le_max_left a c) ih1, ?_⟩
    intro b hb
    rcases List.mem_cons.mp hb with rfl | hbt
    · exact le_trans (le_max_right a b) ih1
    · exact ih2 b hbt

lemma listMin_le_mem (x : List ℚ) : ∀ b ∈ x, listMin x ≤ b :=
  (foldl_min_le x (x.headD 0)).2

lemma mem_le_listMax (x : List ℚ) : ∀ b ∈ x, b ≤ listMax x :=
  (le_foldl_max x (x.headD 0)).2

lemma scaling_mem_bounds (x : List ℚ) (tol : ℚ) (htol : 0 < tol) :
    ∀ y ∈ Scaling x 0 tol, 0 ≤ y ∧ y ≤ 1 := by
  intro y hy
  simp only [Scaling] at hy
  split_ifs at hy with h1 h2
  · rw [List.eq_of_mem_replicate hy]
    norm_num
  · obtain ⟨xi, -, he⟩ := List.mem_map.mp hy
    rw [← he]
    norm_num
  · obtain ⟨xi, hxi, he⟩ := List.mem_map.mp hy
    push_neg at h2
    have hdx : 0 < listMax x - listMin x := lt_of_lt_of_le htol h2
    have hlo : listMin x ≤ xi := listMin_le_mem x xi hxi
    have hhi : xi ≤ listMax x := mem_le_listMax x xi hxi
    rw [← he, zero_add]
    constructor
    · exact div_nonneg (by linarith) hdx.le
    · rw [div_le_one hdx]
      linarith

lemma scaling_getD_bounds (x : List ℚ) (i : ℕ) :
    0 ≤ (Scaling x 0 scalTol).getD i 0 ∧ (Scaling x 0 scalTol).getD i 0 ≤ 1 := by
  by_cases h : i < (Scaling x 0 scalTol).length
  · rw [List.getD_eq_getElem _ _ h]
    exact scaling_mem_bounds x scalTol (by norm_num [scalTol]) _ (List.getElem_mem h)
  · rw [List.getD_eq_default _ _ (by omega)]
    norm_num

/-- Deterministic domination test between individuals (first component of
`IndCompareDet`). -/
def dominatesInd (A B : Individual) : Bool := (IndCompareDet A B).1

/-- Modelled from the spec: the front-assignment part of
`NomDomSortAndCalcDistances` (not under src/) — fast non-dominated sorting:
front 0 holds the individuals dominated by nobody, later fronts are peeled
iteratively (§4.3).  The fuel argument (the population size) bounds the number
of fronts. -/
def peelFronts : List Individual → List (ℕ × Individual) → ℤ → List (ℕ × ℤ)
  | [], _, _ => []
  | _ :: fuel, rem, f =>
    let dominated : ℕ × Individual → Bool := fun p =>
      rem.any fun q => decide (q.1 ≠ p.1) && dominatesInd q.2 p.2
    let front := rem.filter (fun p => !dominated p)
    if front.isEmpty then []
    else front.map (fun p => (p.1, f)) ++ peelFronts fuel (rem.filter dominated) (f + 1)

/-- Front id of the `i`-th population member after non-dominated sorting. -/
def frontIdAt (pop : List Individual) (i : ℕ) : ℤ :=
  ((peelFronts pop pop.enum 0).lookup i).getD 0

/-- Scaled objective column `j` (`o.sovas[j]` of src/island.go). -/
def sovasAt (pop : List Individual) (j : ℕ) : List ℚ :=
  Scaling (pop.map fun ind => ind.Ovas.getD j 0) 0 scalTol

/-- Scaled out-of-range column `j` (`o.soors[j]` of src/island.go). -/
def soorsAt (pop : List Individual) (j : ℕ) : List ℚ :=
  Scaling (pop.map fun ind => ind.Oors.getD j 0) 0 scalTol

/-- One step of the demerit-shift loop of `CalcDemeritsCdistAndSort`
(src/island.go): on the first positive out-of-range value the demerit is reset
to the shift 2.0, and every positive out-of-range value adds its scaled
counterpart. -/
def shiftStep (oors : List ℚ) (soor : ℕ → ℚ) (st : Bool × ℚ) (j : ℕ) : Bool × ℚ :=
  if 0 < oors.getD j 0 then (false, (if st.1 then (2 : ℚ) else st.2) + soor j) else st

/-- The demerit-shift loop over the `noor` out-of-range positions. -/
def demShift (noor : ℕ) (oors : List ℚ) (soor : ℕ → ℚ) (dem : ℚ) : ℚ :=
  ((List.range noor).foldl (shiftStep oors soor) (true, dem)).2

/-- Sum of the scaled out-of-range values at the positions with a positive
(violated) out-of-range value. -/
def posSum (oors : List ℚ) (soor : ℕ → ℚ) (l : List ℕ) : ℚ :=
  ((l.filter fun j => decide (0 < oors.getD j 0)).map soor).sum

/-- An individual violates some constraint among the first `noor` ones. -/
def hasViolation (noor : ℕ) (ind : Individual) : Bool :=
  (List.range noor).any fun j => decide (0 < ind.Oors.getD j 0)

/-- Demerit computation of `CalcDemeritsCdistAndSort` (src/island.go): front
assignment, then base demerit (front id when multi-objective, sum of scaled
objectives when single-objective), then the infeasibility shift. -/
def calcDemerits (C : ConfParams) (pop : List Individual) : List Individual :=
  pop.enum.map fun p =>
    let base : ℚ :=
      if 1 < C.Nova then (frontIdAt pop p.1 : ℚ)
      else ((List.range C.Nova).map fun j => (sovasAt pop j).getD p.1 0).sum
    { p.2 with
      FrontId := frontIdAt pop p.1
      Demerit := demShift C.Noor p.2.Oors (fun j => (soorsAt pop j).getD p.1 0) base }

/-- Modelled from the spec: `Population.SortByDemerit` (not under src/) — sort
ascending by demerit (lower demerit = better). -/
def SortByDemerit (pop : List Individual) : List Individual :=
  pop.mergeSort fun a b => decide (a.Demerit ≤ b.Demerit)

/-- CalcDemeritsCdistAndSort (src/island.go): compute demerits (with front
assignment) and sort the population by them.  The crowd/neighbour distance
computations of `NomDomSortAndCalcDistances` do not affect demerits and are
not modelled. -/
def CalcDemeritsCdistAndSort (C : ConfParams) (pop : List Individual) : List Individual :=
  SortByDemerit (calcDemerits C pop)

lemma mem_calcDemeritsSort_iff (C : ConfParams) (pop : List Individual) (a : Individual) :
    a ∈ CalcDemeritsCdistAndSort C pop ↔ a ∈ calcDemerits C pop := by
  unfold CalcDemeritsCdistAndSort SortByDemerit
  exact (List.mergeSort_perm _ _).mem_iff

lemma posSum_cons_pos (oors : List ℚ) (soor : ℕ → ℚ) {j : ℕ} {t : List ℕ}
    (hj : 0 < oors.getD j 0) :
    posSum oors soor (j :: t) = soor j + posSum oors soor t := by
  unfold posSum
  rw [List.filter_cons, if_pos (decide_eq_true hj), List.map_cons, List.sum_cons]

lemma posSum_cons_neg (oors : List ℚ) (soor : ℕ → ℚ) {j : ℕ} {t : List ℕ}
    (hj : ¬0 < oors.getD j 0) :
    posSum oors soor (j :: t) = posSum oors soor t := by
  unfold posSum
  rw [List.filter_cons, if_neg (by simpa using hj)]

lemma foldl_shiftStep_false (oors : List ℚ) (soor : ℕ → ℚ) (l : List ℕ) (x : ℚ) :
    l.foldl (shiftStep oors soor) (false, x) = (false, x + posSum oors soor l) := by
  induction l generalizing x with
  | nil => simp [posSum]
  | cons j t ih =>
    rw [List.foldl_cons]
    by_cases hj : 0 < oors.getD j 0
    · rw [show shiftStep oors soor (false, x) j = (false, x + soor j) from by
        unfold shiftStep; rw [if_pos hj]; rfl]
      rw [ih, posSum_cons_pos oors soor hj, add_assoc]
    · rw [show shiftStep oors soor (false, x) j = (false, x) from by
        unfold shiftStep; rw [if_neg hj]]
      rw [ih, posSum_cons_neg oors soor hj]

lemma foldl_shiftStep_true (oors : List ℚ) (soor : ℕ → ℚ) (l : List ℕ) (dem : ℚ) :
    (l.foldl (shiftStep oors soor) (true, dem)).2 =
      if l.any (fun j => decide (0 < oors.getD j 0)) then 2 + posSum oors soor l else dem := by
  induction l generalizing dem with
  | nil => simp
  | cons j t ih =>
    rw [List.foldl_cons]
    by_cases hj : 0 < oors.getD j 0
    · rw [show shiftStep oors soor (true, dem) j = (false, 2 + soor j) from by
        unfold shiftStep; rw [if_pos hj]; rfl]
      have hany : ((j :: t).any fun i => decide (0 < oors.getD i 0)) = true := by
        rw [List.any_cons, decide_eq_true hj, Bool.true_or]
      rw [foldl_shiftStep_false, if_pos hany]
      show 2 + soor j + posSum oors soor t = 2 + posSum oors soor (j :: t)
      rw [posSum_cons_pos oors soor hj, add_assoc]
    · rw [show shiftStep oors soor (true, dem) j = (true, dem) from by
        unfold shiftStep; rw [if_neg hj]]
      rw [ih]
      have hany : ((j :: t).any fun i => decide (0 < oors.getD i 0)) =
          (t.any fun i => decide (0 < oors.getD i 0)) := by
        rw [List.any_cons, decide_eq_false hj, Bool.false_or]
      rw [hany, posSum_cons_neg oors soor hj]

lemma demShift_of_violation (noor : ℕ) (oors : List ℚ) (soor : ℕ → ℚ) (dem : ℚ)
    (h : ((List.range noor).any fun j => decide (0 < oors.getD j 0)) = true) :
    demShift noor oors soor dem = 2 + posSum oors soor (List.range noor) := by
  unfold demShift
  rw [foldl_shiftStep_true, if_pos h]

lemma demShift_of_feasible (noor : ℕ) (oors : List ℚ) (soor : ℕ → ℚ) (dem : ℚ)
    (h : ((List.range noor).any fun j => decide (0 < oors.getD j 0)) = false) :
    demShift noor oors soor dem = dem := by
  unfold demShift
  rw [foldl_shiftStep_true, if_neg (by rw [h]; simp)]

lemma posSum_nonneg (oors : List ℚ) (soor : ℕ → ℚ) (l : List ℕ)
    (h : ∀ j ∈ l, 0 ≤ soor j) : 0 ≤ posSum oors soor l := by
  unfold posSum
  refine List.sum_nonneg ?_
  intro x hx
  obtain ⟨j, hj, he⟩ := List.mem_map.mp hx
  rw [← he]
  exact h j (List.mem_of_mem_filter hj)

lemma calcDemerits_length (C : ConfParams) (pop : List Individual) :
    (calcDemerits C pop).length = pop.length := by
  unfold calcDemerits
  rw [List.length_map, List.enum_length]

lemma calcDemerits_get (C : ConfParams) (pop : List Individual) (i : ℕ)
    (h : i < (calcDemerits C pop).length) :
    (calcDemerits C pop).get ⟨i, h⟩ =
      (let ind := pop.get ⟨i, by rw [calcDemerits_length] at h; exact h⟩
       let base : ℚ :=
         if 1 < C.Nova then (frontIdAt pop i : ℚ)
         else ((List.range C.Nova).map fun j => (sovasAt pop j).getD i 0).sum
       { ind with
         FrontId := frontIdAt pop i
         Demerit := demShift C.Noor ind.Oors (fun j => (soorsAt pop j).getD i 0) base }) := by
  have hi : i < pop.length := by rw [calcDemerits_length] at h; exact h
  have he : i < pop.enum.length := by rw [List.enum_length]; exact hi
  simp only [calcDemerits, List.get_eq_getElem, List.getElem_map, List.getElem_enum]

/-- C3 amended: after the demerit computation, every infeasible individual has
demerit exactly 2 + the sum of its scaled positive penalties (in both demerit
modes), and in the single-objective mode (`Nova = 1`) every feasible
individual's demerit is strictly smaller than every infeasible one's (so
feasible solutions sort ahead).  In the multi-objective mode the strict
separation fails (see the counterexample). -/
theorem calcDemerits_feasible_vs_infeasible (C : ConfParams) (pop : List Individual) :
    (∀ i, ∀ h : i < (calcDemerits C pop).length,
      hasViolation C.Noor ((calcDemerits C pop).get ⟨i, h⟩) = true →
      ((calcDemerits C pop).get ⟨i, h⟩).Demerit =
        2 + posSum ((calcDemerits C pop).get ⟨i, h⟩).Oors
              (fun j => (soorsAt pop j).getD i 0) (List.range C.Noor)) ∧
    (C.Nova = 1 →
      ∀ f ∈ CalcDemeritsCdistAndSort C pop, hasViolation C.Noor f = false →
      ∀ g ∈ CalcDemeritsCdistAndSort C pop, hasViolation C.Noor g = true →
        f.Demerit < g.Demerit) := by
  have hsoor_nonneg : ∀ (i j : ℕ), 0 ≤ (soorsAt pop j).getD i 0 := by
    intro i j
    exact (scaling_getD_bounds _ i).1
  have hdem : ∀ i, ∀ h : i < (calcDemerits C pop).length,
      (hasViolation C.Noor ((calcDemerits C pop).get ⟨i, h⟩) = true →
        ((calcDemerits C pop).get ⟨i, h⟩).Demerit =
          2 + posSum ((calcDemerits C pop).get ⟨i, h⟩).Oors
                (fun j => (soorsAt pop j).getD i 0) (List.range C.Noor)) ∧
      (hasViolation C.Noor ((calcDemerits C pop).get ⟨i, h⟩) = false → C.Nova = 1 →
        0 ≤ ((calcDemerits C pop).get ⟨i, h⟩).Demerit ∧
          ((calcDemerits C pop).get ⟨i, h⟩).Demerit ≤ 1) := by
    intro i h
    rw [calcDemerits_get C pop i h]
    simp only []
    constructor
    · intro hviol
      unfold hasViolation at hviol
      rw [demShift_of_violation _ _ _ _ hviol]
    · intro hfeas hnova
      unfold hasViolation at hfeas
      rw [demShift_of_feasible _ _ _ _ hfeas]
      rw [hnova]
      rw [if_neg (by omega)]
      rw [show List.range 1 = [0] from rfl, List.map_cons, List.map_nil, List.sum_cons,
        List.sum_nil, add_zero]
      exact scaling_getD_bounds _ i
  refine ⟨fun i h => (hdem i h).1, ?_⟩
  intro hnova f hf hffeas g hg gviol
  rw [mem_calcDemeritsSort_iff] at hf hg
  obtain ⟨⟨i, hi⟩, hif⟩ := List.mem_iff_get.mp hf
  obtain ⟨⟨k, hk⟩, hkg⟩ := List.mem_iff_get.mp hg
  have hfb := ((hdem i hi).2)
  rw [hif] at hfb
  have hgb := ((hdem k hk).1)
  rw [hkg] at hgb
  obtain ⟨-, hfle⟩ := hfb hffeas hnova
  have hgdem := hgb gviol
  have hpos : 0 ≤ posSum g.Oors (fun j => (soorsAt pop j).getD k 0) (List.range C.Noor) :=
    posSum_nonneg _ _ _ (fun j _ => hsoor_nonneg k j)
  rw [hgdem]
  linarith

/-- Multi-objective configuration (two objectives, one constraint). -/
def confMulti : ConfParams := { Nova := 2, Noor := 1, CompProb := false, CdistOff := false }

/-- Population with a four-deep chain of feasible fronts plus one infeasible
individual. -/
def popChain : List Individual :=
  [{ Id := 0, Ovas := [0, 0], Oors := [0], Demerit := 0, FrontId := 0, DistCrowd := 0, DistNeigh := 0 },
   { Id := 1, Ovas := [1, 1], Oors := [0], Demerit := 0, FrontId := 0, DistCrowd := 0, DistNeigh := 0 },
   { Id := 2, Ovas := [2, 2], Oors := [0], Demerit := 0, FrontId := 0, DistCrowd := 0, DistNeigh := 0 },
   { Id := 3, Ovas := [3, 3], Oors := [0], Demerit := 0, FrontId := 0, DistCrowd := 0, DistNeigh := 0 },
   { Id := 4, Ovas := [0, 0], Oors := [1], Demerit := 0, FrontId := 0, DistCrowd := 0, DistNeigh := 0 }]

/-- The feasible front-3 member of `popChain` after the demerit computation:
its front-id demerit reaches 3. -/
def indChainFeasOut : Individual :=
  { Id := 3, Ovas := [3, 3], Oors := [0], Demerit := 3, FrontId := 3, DistCrowd := 0, DistNeigh := 0 }

/-- The infeasible member of `popChain` after the demerit computation: its
demerit is 2 + its scaled penalty 1 = 3. -/
def indChainInfeasOut : Individual :=
  { Id := 4, Ovas := [0, 0], Oors := [1], Demerit := 3, FrontId := 4, DistCrowd := 0, DistNeigh := 0 }

lemma calcDemerits_popChain_eval :
    calcDemerits confMulti popChain =
      [{ Id := 0, Ovas := [0, 0], Oors := [0], Demerit := 0, FrontId := 0, DistCrowd := 0, DistNeigh := 0 },
       { Id := 1, Ovas := [1, 1], Oors := [0], Demerit := 1, FrontId := 1, DistCrowd := 0, DistNeigh := 0 },
       { Id := 2, Ovas := [2, 2], Oors := [0], Demerit := 2, FrontId := 2, DistCrowd := 0, DistNeigh := 0 },
       indChainFeasOut, indChainInfeasOut] := by
  norm_num [calcDemerits, confMulti, popChain, indChainFeasOut, indChainInfeasOut,
    List.enum, List.enumFrom, frontIdAt, peelFronts,
    dominatesInd, IndCompareDet, countPosTo, DblsParetoMin, sovasAt, soorsAt, Scaling,
    listMin, listMax, scalTol, demShift, shiftStep, hasViolation, List.lookup,
    List.range_succ, List.filter, List.isEmpty, List.any, List.all, List.countP,
    List.foldl, List.zip, List.zipWith]
  decide

/-- C3 counterexample: in the multi-objective demerit mode, the feasible
front-3 individual of `popChain` ends with demerit 3 while the infeasible
individual ends with demerit 2 + 1 = 3 as well — the feasible demerit is NOT
strictly smaller than the infeasible one, so feasible solutions do not always
sort strictly ahead of infeasible ones. -/
theorem demerits_multiobjective_tie_cex :
    indChainFeasOut ∈ CalcDemeritsCdistAndSort confMulti popChain ∧
    hasViolation confMulti.Noor indChainFeasOut = false ∧
    indChainInfeasOut ∈ CalcDemeritsCdistAndSort confMulti popChain ∧
    hasViolation confMulti.Noor indChainInfeasOut = true ∧
    ¬(indChainFeasOut.Demerit < indChainInfeasOut.Demerit) := by
  refine ⟨?_, by decide, ?_, by decide, by decide⟩
  · rw [mem_calcDemeritsSort_iff, calcDemerits_popChain_eval]
    decide
  · rw [mem_calcDemeritsSort_iff, calcDemerits_popChain_eval]
    decide

/-- Single-objective configuration (one objective, one constraint). -/
def confSingle : ConfParams := { Nova := 1, Noor := 1, CompProb := false, CdistOff := false }

/-- Two-individual single-objective population: one feasible, one
infeasible. -/
def popSingle : List Individual :=
  [{ Id := 0, Ovas := [0], Oors := [0], Demerit := 0, FrontId := 0, DistCrowd := 0, DistNeigh := 0 },
   { Id := 1, Ovas := [1], Oors := [1], Demerit := 0, FrontId := 0, DistCrowd := 0, DistNeigh := 0 }]

/-- The feasible member of `popSingle` after the demerit computation. -/
def indSingleFeasOut : Individual :=
  { Id := 0, Ovas := [0], Oors := [0], Demerit := 0, FrontId := 0, DistCrowd := 0, DistNeigh := 0 }

/-- The infeasible member of `popSingle` after the demerit computation. -/
def indSingleInfeasOut : Individual :=
  { Id := 1, Ovas := [1], Oors := [1], Demerit := 3, FrontId := 1, DistCrowd := 0, DistNeigh := 0 }

lemma calcDemerits_popSingle_eval :
    calcDemerits confSingle popSingle = [indSingleFeasOut, indSingleInfeasOut] := by
  norm_num [calcDemerits, confSingle, popSingle, indSingleFeasOut, indSingleInfeasOut,
    List.enum, List.enumFrom, frontIdAt, peelFronts,
    dominatesInd, IndCompareDet, countPosTo, DblsParetoMin, sovasAt, soorsAt, Scaling,
    listMin, listMax, scalTol, demShift, shiftStep, hasViolation, List.lookup,
    List.range_succ, List.filter, List.isEmpty, List.any, List.all, List.countP,
    List.foldl, List.zip, List.zipWith]
  rfl

/-- C3 amended witness: the single-objective separation applied to the
concrete population `popSingle`. -/
theorem calcDemerits_feasible_vs_infeasible_witness :
    confSingle.Nova = 1 ∧
    indSingleFeasOut ∈ CalcDemeritsCdistAndSort confSingle popSingle ∧
    hasViolation confSingle.Noor indSingleFeasOut = false ∧
    indSingleInfeasOut ∈ CalcDemeritsCdistAndSort confSingle popSingle ∧
    hasViolation confSingle.Noor indSingleInfeasOut = true ∧
    indSingleFeasOut.Demerit < indSingleInfeasOut.Demerit := by
  have h0 : indSingleFeasOut ∈ CalcDemeritsCdistAndSort confSingle popSingle := by
    rw [mem_calcDemeritsSort_iff, calcDemerits_popSingle_eval]
    decide
  have h1 : indSingleInfeasOut ∈ CalcDemeritsCdistAndSort confSingle popSingle := by
    rw [mem_calcDemeritsSort_iff, calcDemerits_popSingle_eval]
    decide
  exact ⟨rfl, h0, by decide, h1, by decide,
    (calcDemerits_feasible_vs_infeasible confSingle popSingle).2 rfl
      indSingleFeasOut h0 (by decide) indSingleInfeasOut h1 (by decide)⟩
